import Mathlib

/-!
Shallow embedding of the minimal Forth interpreter (`forth_mini.c`).

Modelling conventions:
* C `int` values are Lean `Int`s; wherever the C code narrows to `int`
  width the model applies `wrap32` (two's-complement wraparound at 32
  bits).  Signed-overflow of `+ - *` is undefined behavior in C; the
  model fixes the usual wraparound as the concrete behavior, which no
  claim depends on.
* Genuinely undefined native behavior that the code can reach (division
  by zero, the out-of-bounds read in `dup` on an empty stack) is modelled
  as the distinguished fatal outcome `Err.nativeUB`.
* `printf`/`exit(1)` error paths are fatal outcomes carrying the error
  kind; ordinary output is a list of structured events in the state.
* The C dictionary is an intrusive singly linked list, newest entry
  first, entries never deallocated.  The model stores the arena of
  entries as a list in allocation order (index = stable handle, standing
  for the C pointer); `find_word` scans indices downward, which is
  exactly the newest-first traversal of the linked list.
* Compiled bodies hold tagged machine words: the C code stores
  `(num << 1) | 1` for a literal (64-bit `intptr_t` arithmetic, modelled
  by `encodeLit` as the nonnegative 64-bit bit pattern) and an (even,
  malloc-aligned) `Word*` for a word reference, modelled as the `ref`
  variant carrying the arena handle.
* Recursion through `execute_word` and the interpreter loop is fueled;
  running out of fuel is the separate outcome `Halt.outOfFuel`, never
  confused with a program error.
* Buffers of size `WORD_SIZE`/`INPUT_SIZE` are assumed large enough for
  the inputs considered (name truncation at 31 chars is not modelled).
-/

/-- Machine-word helpers: two's-complement wraparound to C `int` width. -/
def wrap32 (x : Int) : Int := (x + 2147483648) % 4294967296 - 2147483648

/-- The nonnegative 32-bit pattern of an `int` value (used for bitwise ops). -/
def pat32 (x : Int) : Nat := (x % 4294967296).toNat

/-- Reinterpret a 32-bit pattern as a signed `int`. -/
def toSigned32 (v : Nat) : Int :=
  if v < 2147483648 then (v : Int) else (v : Int) - 4294967296

/-- Reinterpret a 64-bit pattern as a signed `intptr_t`. -/
def toSigned64 (v : Int) : Int :=
  if v < 9223372036854775808 then v else v - 18446744073709551616

/-- `interpret`, compiling a number (line 246): `(void*)((intptr_t)(num << 1) | 1)`.
The result is the 64-bit bit pattern of the tagged word (low bit set). -/
def encodeLit (num : Int) : Int := (2 * num + 1) % 18446744073709551616

/-- `execute_word`, literal case (line 163): `(int)((intptr_t)val >> 1)` —
arithmetic shift right one bit of the 64-bit pattern, then narrowing to `int`. -/
def decodeLit (w : Int) : Int :=
  wrap32 (toSigned64 (w / 2 + (if w < 9223372036854775808 then 0 else 9223372036854775808)))

/-- The primitives installed by `init_forth`, one per C function pointer. -/
inductive Prim
  | add | sub | mul | divide | mod | dup | drop | swap | over | rot
  | emit | cr | dot | dots | eq | lt | gt | and | or | not
  | colon | semicolon
deriving DecidableEq, Repr

/-- One cell of a compiled body (`void *`): either a tagged literal
(odd 64-bit pattern, `encodeLit`) or a word pointer (arena handle). -/
inductive Item
  | lit (w : Int)
  | ref (i : Nat)
deriving DecidableEq, Repr

/-- Structured output events, one per `printf` the core performs. -/
inductive OutEvt
  | num (n : Int)        -- `.` : printf("%d ", v)
  | ch (c : Int)         -- EMIT : printf("%c", v)
  | newline              -- CR / the newline ending `.S`
  | depth (n : Nat)      -- `.S` header printf("<sp=%d> ", sp)
  | unknown (tok : String)   -- "Unknown word: %s"
  | semicolonOutside     -- "Error: ';' outside definition"
  | missingName          -- "Error: expected word name after ':'"
deriving DecidableEq, Repr

/-- A dictionary entry (`struct Word`).  `code = some p` is a primitive
(function pointer set); `code = none` is a compiled word whose body is
`data`.  The `next` pointer is implicit in the arena ordering. -/
structure Word where
  name : String
  is_immediate : Bool
  code : Option Prim
  data : List Item
deriving DecidableEq, Repr

/-- Fatal error kinds (each is a `printf` + `exit(1)`, or native UB). -/
inductive Err
  | stackOverflow | stackUnderflow | rstackOverflow | rstackUnderflow
  | nativeUB
deriving DecidableEq, Repr

/-- How a run can stop abnormally: a fatal program error, or the model's
fuel for unbounded recursion running out (an artifact, not a behavior). -/
inductive Halt
  | fatal (e : Err)
  | outOfFuel
deriving DecidableEq, Repr

deriving instance DecidableEq for Except

/-- The whole global state of the interpreter. -/
structure Forth where
  stack : List Int           -- data stack, head = top (stack[sp-1])
  rstack : List Int          -- return stack, head = top
  words : List Word          -- arena of dictionary entries, oldest first
  current_word : Option Nat  -- handle of the entry being compiled
  compiling : Bool
  compile_buffer : List Item -- in append order
  inputToks : List String    -- rest of the current line (input_ptr cursor)
  out : List OutEvt
deriving DecidableEq, Repr

def STACK_SIZE : Nat := 256

/-- `push` (lines 69–75). -/
def push (v : Int) (s : Forth) : Except Halt Forth :=
  if STACK_SIZE ≤ s.stack.length then .error (.fatal .stackOverflow)
  else .ok { s with stack := v :: s.stack }

/-- `pop` (lines 77–83). -/
def pop (s : Forth) : Except Halt (Int × Forth) :=
  match s.stack with
  | [] => .error (.fatal .stackUnderflow)
  | v :: rest => .ok (v, { s with stack := rest })

/-- `rpush` (lines 85–91); unused by the base word set. -/
def rpush (v : Int) (s : Forth) : Except Halt Forth :=
  if STACK_SIZE ≤ s.rstack.length then .error (.fatal .rstackOverflow)
  else .ok { s with rstack := v :: s.rstack }

/-- `rpop` (lines 93–99); unused by the base word set. -/
def rpop (s : Forth) : Except Halt (Int × Forth) :=
  match s.rstack with
  | [] => .error (.fatal .rstackUnderflow)
  | v :: rest => .ok (v, { s with rstack := rest })

/-- Case-insensitive name key (`strcasecmp` under the default C locale). -/
def lc (s : String) : List Char := s.data.map Char.toLower

/-- `find_word` (lines 130–139) scans the linked list from its head, i.e.
from the newest arena entry (highest index) down to the oldest. -/
def find_down (ws : List Word) (nm : String) : Nat → Option Nat
  | 0 => none
  | i + 1 =>
    match ws.get? i with
    | some w => if lc w.name = lc nm then some i else find_down ws nm i
    | none => find_down ws nm i

def find_word (ws : List Word) (nm : String) : Option Nat :=
  find_down ws nm ws.length

/-- `add_word` (lines 141–151): prepend to the linked list = append to the arena. -/
def add_word (nm : String) (p : Prim) (immediate : Bool) (s : Forth) : Forth :=
  { s with words := s.words ++ [⟨nm, immediate, some p, []⟩] }

/-- Immediacy of the entry at a handle (false for a dangling handle,
which no reachable state produces). -/
def isImmAt (s : Forth) (i : Nat) : Bool :=
  match s.words.get? i with
  | some w => w.is_immediate
  | none => false

/-- Value of a digit string (tokens have no whitespace). -/
def digitsVal (cs : List Char) : Nat :=
  cs.foldl (fun acc c => 10 * acc + (c.toNat - 48)) 0

/-- `strtol` clamps to `long` range on overflow. -/
def clampLong (x : Int) : Int :=
  max (-9223372036854775808) (min 9223372036854775807 x)

/-- Lines 241–243: `strtol(word, &endptr, 10)` followed by the whole-token
check `*endptr == '\0'`: an optional sign, then one or more decimal
digits, nothing else. -/
def parseNum (s : String) : Option Int :=
  match s.data with
  | [] => none
  | c :: cs =>
    let sgn : Int := if c = '-' then -1 else 1
    let ds : List Char := if c = '-' ∨ c = '+' then cs else c :: cs
    if ds ≠ [] ∧ ds.all Char.isDigit then some (clampLong (sgn * (digitsVal ds : Int)))
    else none

/-- `sscanf("%s")`/`strstr` tokenization of a line: split on whitespace. -/
def toksAux : List Char → List Char → List String
  | [], acc => if acc = [] then [] else [String.mk acc.reverse]
  | c :: cs, acc =>
    if c.isWhitespace then
      if acc = [] then toksAux cs [] else String.mk acc.reverse :: toksAux cs []
    else toksAux cs (c :: acc)

def tokenize (line : String) : List String := toksAux line.data []

/-- `end_compile` (lines 189–199): attach the buffer (whatever it holds)
to the current word, then reset the compilation state. -/
def end_compile (s : Forth) : Forth :=
  let ws :=
    match s.current_word with
    | some i =>
      match s.words.get? i with
      | some w => s.words.set i { w with data := s.compile_buffer }
      | none => s.words
    | none => s.words
  { s with words := ws, compile_buffer := [], compiling := false, current_word := none }

/-- `colon` (lines 202–222): read the definition name from the input
cursor, register a fresh non-immediate empty entry, start compiling. -/
def prim_colon (s : Forth) : Except Halt Forth :=
  match s.inputToks with
  | [] => .ok { s with out := s.out ++ [.missingName] }
  | nm :: rest =>
    .ok { s with
          inputToks := rest,
          words := s.words ++ [⟨nm, false, none, []⟩],
          current_word := some s.words.length,
          compiling := true,
          compile_buffer := [] }

/-- `semicolon` (lines 224–230). -/
def prim_semicolon (s : Forth) : Except Halt Forth :=
  if s.compiling then .ok (end_compile s)
  else .ok { s with out := s.out ++ [.semicolonOutside] }

/-- The shared shape of every binary primitive (lines 102–106, 122–126):
`int b = pop(); int a = pop(); push(f(a, b));`, where `f` may itself hit
undefined behavior (zero divisor). -/
def binPrim (f : Int → Int → Except Halt Int) (s : Forth) : Except Halt Forth :=
  match pop s with
  | .error e => .error e
  | .ok (b, s1) =>
    match pop s1 with
    | .error e => .error e
    | .ok (a, s2) =>
      match f a b with
      | .error e => .error e
      | .ok v => push v s2

/-- Dispatch of the primitive function pointers (lines 102–127, 202–230).
`dup` (line 107) reads `stack[sp-1]` with no bounds check: on an empty
stack that is an out-of-bounds read, modelled as `nativeUB`.  `divide`
and `mod` (lines 105–106) perform native `/`/`%`: a zero divisor is
undefined behavior, modelled as `nativeUB`. -/
def execPrim (p : Prim) (s : Forth) : Except Halt Forth :=
  match p with
  | .add => binPrim (fun a b => .ok (wrap32 (a + b))) s
  | .sub => binPrim (fun a b => .ok (wrap32 (a - b))) s
  | .mul => binPrim (fun a b => .ok (wrap32 (a * b))) s
  | .divide =>
    binPrim (fun a b =>
      if b = 0 then .error (.fatal .nativeUB) else .ok (wrap32 (Int.tdiv a b))) s
  | .mod =>
    binPrim (fun a b =>
      if b = 0 then .error (.fatal .nativeUB) else .ok (wrap32 (Int.tmod a b))) s
  | .dup =>
    match s.stack with
    | [] => .error (.fatal .nativeUB)
    | a :: _ => push a s
  | .drop =>
    match pop s with
    | .error e => .error e
    | .ok (_, s1) => .ok s1
  | .swap =>
    match pop s with
    | .error e => .error e
    | .ok (a, s1) =>
      match pop s1 with
      | .error e => .error e
      | .ok (b, s2) =>
        match push a s2 with
        | .error e => .error e
        | .ok s3 => push b s3
  | .over =>
    match pop s with
    | .error e => .error e
    | .ok (a, s1) =>
      match pop s1 with
      | .error e => .error e
      | .ok (b, s2) =>
        match push b s2 with
        | .error e => .error e
        | .ok s3 =>
          match push a s3 with
          | .error e => .error e
          | .ok s4 => push b s4
  | .rot =>
    match pop s with
    | .error e => .error e
    | .ok (c, s1) =>
      match pop s1 with
      | .error e => .error e
      | .ok (b, s2) =>
        match pop s2 with
        | .error e => .error e
        | .ok (a, s3) =>
          match push b s3 with
          | .error e => .error e
          | .ok s4 =>
            match push c s4 with
            | .error e => .error e
            | .ok s5 => push a s5
  | .emit =>
    match pop s with
    | .error e => .error e
    | .ok (a, s1) => .ok { s1 with out := s1.out ++ [.ch a] }
  | .cr => .ok { s with out := s.out ++ [.newline] }
  | .dot =>
    match pop s with
    | .error e => .error e
    | .ok (a, s1) => .ok { s1 with out := s1.out ++ [.num a] }
  | .dots =>
    .ok { s with out :=
      s.out ++ [.depth s.stack.length] ++ s.stack.reverse.map OutEvt.num ++ [.newline] }
  | .eq => binPrim (fun a b => .ok (if a = b then -1 else 0)) s
  | .lt => binPrim (fun a b => .ok (if a < b then -1 else 0)) s
  | .gt => binPrim (fun a b => .ok (if b < a then -1 else 0)) s
  | .and => binPrim (fun a b => .ok (toSigned32 (Nat.land (pat32 a) (pat32 b)))) s
  | .or => binPrim (fun a b => .ok (toSigned32 (Nat.lor (pat32 a) (pat32 b)))) s
  | .not =>
    match pop s with
    | .error e => .error e
    | .ok (a, s1) => push (toSigned32 (Nat.xor (pat32 a) 4294967295)) s1
  | .colon => prim_colon s
  | .semicolon => prim_semicolon s

/-- A call frame: either `execute_word w` (lines 153–171) on the entry at
a handle, or the body-walking loop (lines 158–169) with the items still
to run.  Merged into one fuel-structural function so that the mutual
recursion of `execute_word` with its own body loop stays executable by
the kernel; fuel only bounds the recursion the C program leaves
unbounded (a self-referential compiled word overflows the native call
stack — an accepted limitation of the source). -/
inductive Frame
  | word (i : Nat)
  | body (items : List Item)
deriving DecidableEq, Repr

def exec : Nat → Frame → Forth → Except Halt Forth
  | 0, _, _ => .error .outOfFuel
  | fuel + 1, .word i, s =>
    match s.words.get? i with
    | none => .error (.fatal .nativeUB)   -- dangling Word*: unreachable
    | some w =>
      match w.code with
      | some p => execPrim p s
      | none => exec fuel (.body w.data) s
  | _ + 1, .body [], s => .ok s
  | fuel + 1, .body (.lit w :: rest), s =>
    match push (decodeLit w) s with
    | .ok s1 => exec fuel (.body rest) s1
    | .error e => .error e
  | fuel + 1, .body (.ref j :: rest), s =>
    match exec fuel (.word j) s with
    | .ok s1 => exec fuel (.body rest) s1
    | .error e => .error e

/-- `execute_word` (lines 153–171). -/
def execute_word (fuel : Nat) (i : Nat) (s : Forth) : Except Halt Forth :=
  exec fuel (.word i) s

/-- The body-execution loop of `execute_word` (lines 158–169). -/
def execBody (fuel : Nat) (items : List Item) (s : Forth) : Except Halt Forth :=
  exec fuel (.body items) s

/-- The token loop of `interpret` (lines 233–270), driven by the
`inputToks` cursor in the state. -/
def interpret_loop : Nat → Forth → Except Halt Forth
  | 0, _ => .error .outOfFuel
  | fuel + 1, s =>
    match s.inputToks with
    | [] => .ok s
    | tok :: rest =>
      let s1 := { s with inputToks := rest }
      match parseNum tok with
      | some num =>
        if s1.compiling then
          interpret_loop fuel
            { s1 with compile_buffer := s1.compile_buffer ++ [.lit (encodeLit num)] }
        else
          match push (wrap32 num) s1 with
          | .ok s2 => interpret_loop fuel s2
          | .error e => .error e
      | none =>
        match find_word s1.words tok with
        | some i =>
          if s1.compiling && !(isImmAt s1 i) then
            interpret_loop fuel { s1 with compile_buffer := s1.compile_buffer ++ [.ref i] }
          else
            match execute_word fuel i s1 with
            | .ok s2 => interpret_loop fuel s2
            | .error e => .error e
        | none =>
          let s2 := { s1 with out := s1.out ++ [.unknown tok] }
          .ok (if s2.compiling then end_compile s2 else s2)

/-- `interpret` on one source line. -/
def interpret (fuel : Nat) (line : String) (s : Forth) : Except Halt Forth :=
  interpret_loop fuel { s with inputToks := tokenize line }

/-- Feed a sequence of lines, as the `main` read loop does. -/
def runLines (fuel : Nat) : List String → Forth → Except Halt Forth
  | [], s => .ok s
  | l :: ls, s =>
    match interpret fuel l s with
    | .ok s1 => runLines fuel ls s1
    | .error e => .error e

/-- The dictionary built by `init_forth` (lines 273–296), in registration
order; handles: `+`=0 … `NOT`=19, `:`=20, `;`=21 (the only immediate). -/
def initWords : List Word :=
  [⟨"+", false, some .add, []⟩,
   ⟨"-", false, some .sub, []⟩,
   ⟨"*", false, some .mul, []⟩,
   ⟨"/", false, some .divide, []⟩,
   ⟨"MOD", false, some .mod, []⟩,
   ⟨"DUP", false, some .dup, []⟩,
   ⟨"DROP", false, some .drop, []⟩,
   ⟨"SWAP", false, some .swap, []⟩,
   ⟨"OVER", false, some .over, []⟩,
   ⟨"ROT", false, some .rot, []⟩,
   ⟨"EMIT", false, some .emit, []⟩,
   ⟨"CR", false, some .cr, []⟩,
   ⟨".", false, some .dot, []⟩,
   ⟨".S", false, some .dots, []⟩,
   ⟨"=", false, some .eq, []⟩,
   ⟨"<", false, some .lt, []⟩,
   ⟨">", false, some .gt, []⟩,
   ⟨"AND", false, some .and, []⟩,
   ⟨"OR", false, some .or, []⟩,
   ⟨"NOT", false, some .not, []⟩,
   ⟨":", false, some .colon, []⟩,
   ⟨";", true, some .semicolon, []⟩]

/-- The state right after `init_forth`, before any input. -/
def initState : Forth :=
  ⟨[], [], initWords, none, false, [], [], []⟩

set_option synthInstance.maxSize 1000

/-! ## Auxiliary operations used by the stated properties -/

/-- Iterate `push` over a list of values, stopping at the first failure. -/
def pushSeq : List Int → Forth → Except Halt Forth
  | [], s => .ok s
  | v :: vs, s =>
    match push v s with
    | .ok s1 => pushSeq vs s1
    | .error e => .error e

/-- Iterate `pop` a given number of times, discarding the values. -/
def popN : Nat → Forth → Except Halt Forth
  | 0, s => .ok s
  | n + 1, s =>
    match pop s with
    | .ok (_, s1) => popN n s1
    | .error e => .error e

/-- Handles of the word references stored in a compiled body. -/
def refTargets (its : List Item) : List Nat :=
  its.filterMap (fun it =>
    match it with
    | .ref i => some i
    | .lit _ => none)

/-! ## Shared lemmas -/

theorem decodeLit_encodeLit (n : Int) (h1 : -2147483648 ≤ n) (h2 : n < 2147483648) :
    decodeLit (encodeLit n) = n := by
  unfold decodeLit encodeLit toSigned64 wrap32
  split_ifs <;> omega

theorem encodeLit_odd (n : Int) : encodeLit n % 2 = 1 := by
  unfold encodeLit
  omega

theorem exec_body_nil (fuel : Nat) (s : Forth) : exec (fuel + 1) (.body []) s = .ok s := rfl

/-! ## Claims -/

/-- Claim C1: early binding under shadowing.  After `: F 1 ;`, `: G F ;`,
`: F 2 ;`, invoking `G` pushes 1 (its body captured the original `F`
entry at compile time), while invoking `F` resolves to the newest entry
and pushes 2. -/
theorem shadowing_early_binding :
    (runLines 60 [": F 1 ;", ": G F ;", ": F 2 ;"] initState).map
        (fun s => ((interpret 60 "G" s).map Forth.stack, (interpret 60 "F" s).map Forth.stack))
      = .ok (.ok [1], .ok [2]) := by
  decide

/-- Claim C2 (counter-demonstration): on `: F 1 BAD`, the unknown token
reports UnknownWord and ends the definition, but `end_compile` attaches
the partial buffer: the entry `F` (handle 22) is left with the non-empty
body `[Literal 1]` — not an empty body — and invoking `F` afterwards
executes that partial body, pushing 1. -/
theorem unknown_word_keeps_partial_body :
    (interpret 60 ": F 1 BAD" initState).map
        (fun s => (s.compiling, s.out, (s.words.get? 22).map Word.data,
                   (interpret 60 "F" s).map Forth.stack))
      = .ok (false, [OutEvt.unknown "BAD"], some [Item.lit 3], .ok ([1] : List Int)) := by
  decide

/-- Claim C3 (counter-demonstration): `DUP` on an empty data stack does
not fail through the stack layer's underflow reporting — it reads
`stack[sp-1]` with no check, an out-of-bounds read (undefined behavior),
whereas the stack layer's own `pop` on the same state does report
StackUnderflow. -/
theorem dup_empty_stack_oob :
    interpret 10 "DUP" initState = .error (.fatal .nativeUB) ∧
    pop initState = .error (.fatal .stackUnderflow) := by
  decide

/-- Claim C4: the tag-and-decode round trip of the literal encoding is
lossless over the whole `int` range: executing the body cell compiled
for the numeric token `n` is exactly `push n`, and the tagged word is
odd, hence distinguishable from an (even, aligned) word pointer. -/
theorem literal_encoding_roundtrip (n : Int) (s : Forth) (fuel : Nat)
    (h1 : -2147483648 ≤ n) (h2 : n < 2147483648) :
    execBody (fuel + 2) [Item.lit (encodeLit n)] s = push n s ∧ encodeLit n % 2 = 1 := by
  refine ⟨?_, encodeLit_odd n⟩
  unfold execBody
  show (match push (decodeLit (encodeLit n)) s with
    | .ok s1 => exec (fuel + 1) (.body []) s1
    | .error e => .error e) = push n s
  rw [decodeLit_encodeLit n h1 h2]
  cases hp : push n s with
  | ok s1 => exact exec_body_nil fuel s1
  | error e => rfl

theorem literal_encoding_roundtrip_witness :
    (-2147483648 ≤ (-2147483648 : Int)) ∧ ((-2147483648 : Int) < 2147483648) ∧
    (execBody 2 [Item.lit (encodeLit (-2147483648))] initState = push (-2147483648) initState ∧
     encodeLit (-2147483648) % 2 = 1) :=
  ⟨by decide, by decide,
   literal_encoding_roundtrip (-2147483648) initState 0 (by decide) (by decide)⟩

/-- Claim C5 (counter-demonstration): `/` and `MOD` with a zero divisor
are not detected — the code performs the native division, which is
undefined behavior, not a reported or fatal DivideByZero condition (no
such error path exists in the program). -/
theorem zero_divisor_native_ub :
    interpret 10 "1 0 /" initState = .error (.fatal .nativeUB) ∧
    interpret 10 "1 0 MOD" initState = .error (.fatal .nativeUB) := by
  decide

theorem pushSeq_ok (vs : List Int) : ∀ s : Forth,
    s.stack.length + vs.length ≤ STACK_SIZE →
    pushSeq vs s = .ok { s with stack := vs.reverse ++ s.stack } := by
  induction vs with
  | nil => intro s _; rfl
  | cons v vs ih =>
    intro s h
    simp only [List.length_cons] at h
    have hlt : ¬ STACK_SIZE ≤ s.stack.length := by omega
    have hpush : push v s = .ok { s with stack := v :: s.stack } := by
      unfold push
      rw [if_neg hlt]
    unfold pushSeq
    rw [hpush]
    show pushSeq vs { s with stack := v :: s.stack } = _
    rw [ih { s with stack := v :: s.stack } (by simp only [List.length_cons]; omega)]
    simp

theorem popN_underflow : ∀ (l : List Int) (s : Forth), s.stack = l →
    popN (l.length + 1) s = .error (.fatal .stackUnderflow) := by
  intro l
  induction l with
  | nil => intro s hs; unfold popN pop; rw [hs]
  | cons v rest ih =>
    intro s hs
    show popN (rest.length + 1 + 1) s = _
    unfold popN pop
    rw [hs]
    exact ih { s with stack := rest } rfl

/-- Claim C8: LIFO law of the data stack.  (i) When the stack is not
full, `pop` right after `push v` returns `v` and restores the previous
state.  (ii) Any sequence of pushes that fits in the capacity succeeds.
(iii) One more `pop` than the current depth ends in StackUnderflow. -/
theorem stack_lifo_law :
    (∀ (s : Forth) (v : Int), s.stack.length < STACK_SIZE →
        (push v s).bind pop = .ok (v, s)) ∧
    (∀ (s : Forth) (vs : List Int), s.stack = [] → vs.length ≤ STACK_SIZE →
        pushSeq vs s = .ok { s with stack := vs.reverse }) ∧
    (∀ s : Forth, popN (s.stack.length + 1) s = .error (.fatal .stackUnderflow)) := by
  refine ⟨?_, ?_, ?_⟩
  · intro s v h
    unfold push
    rw [if_neg (by omega)]
    rfl
  · intro s vs hs hlen
    have := pushSeq_ok vs s (by rw [hs]; simpa using hlen)
    rw [this, hs]
    simp
  · intro s
    exact popN_underflow s.stack s rfl

theorem stack_lifo_law_witness :
    (initState.stack.length < STACK_SIZE ∧
      (push 7 initState).bind pop = .ok (7, initState)) ∧
    (initState.stack = [] ∧ ([3, 4, 5] : List Int).length ≤ STACK_SIZE ∧
      pushSeq [3, 4, 5] initState = .ok { initState with stack := [5, 4, 3] }) ∧
    popN (initState.stack.length + 1) initState = .error (.fatal .stackUnderflow) :=
  ⟨⟨by decide, stack_lifo_law.1 initState 7 (by decide)⟩,
   ⟨by decide, by decide, by
      have := stack_lifo_law.2.1 initState [3, 4, 5] (by decide) (by decide)
      simpa using this⟩,
   stack_lifo_law.2.2 initState⟩

/-- Claim C7: unknown-word recovery is local to the line.  In interactive
mode, a token that is neither a number nor a dictionary entry makes the
line stop right there with only `Unknown word: tok` reported — stack,
dictionary and all other state untouched, the rest of the line dropped,
and the interpreter returns normally (`.ok`, not a fatal error).
Concretely, `FOOBAR 1 +` reports UnknownWord, leaves the stack empty,
and a following line `2 3 +` still executes normally. -/
theorem unknown_word_recovery :
    (∀ (s : Forth) (tok : String) (rest : List String) (fuel : Nat),
        parseNum tok = none → find_word s.words tok = none → s.compiling = false →
        interpret_loop (fuel + 1) { s with inputToks := tok :: rest } =
          .ok { s with inputToks := rest, out := s.out ++ [.unknown tok] }) ∧
    ((interpret 20 "FOOBAR 1 +" initState).map (fun s => (s.stack, s.out)) =
        .ok ([], [OutEvt.unknown "FOOBAR"])) ∧
    (((interpret 20 "FOOBAR 1 +" initState).bind (interpret 20 "2 3 +")).map Forth.stack =
        .ok [5]) := by
  refine ⟨?_, by decide, by decide⟩
  intro s tok rest fuel hp hf hc
  unfold interpret_loop
  dsimp only
  rw [hp, hf, hc]
  rfl

theorem unknown_word_recovery_witness :
    parseNum "FOOBAR" = none ∧
    find_word initState.words "FOOBAR" = none ∧
    initState.compiling = false ∧
    interpret_loop 6 ⟨[], [], initWords, none, false, [], ["FOOBAR", "1", "+"], []⟩ =
      .ok ⟨[], [], initWords, none, false, [], ["1", "+"], [OutEvt.unknown "FOOBAR"]⟩ :=
  ⟨by decide, by decide, by decide,
   unknown_word_recovery.1 initState "FOOBAR" ["1", "+"] 5 (by decide) (by decide) (by decide)⟩

/-- Claim C9: `.S` on any data stack (any depth, including empty) of a
freshly initialized dictionary writes the current depth and then the
stack contents bottom-to-top, and leaves the stack (and all other
interpreter state) exactly as it was. -/
theorem dots_reports_depth_and_contents (st rs : List Int) (os : List OutEvt) (fuel : Nat) :
    interpret_loop (fuel + 2) ⟨st, rs, initWords, none, false, [], [".S"], os⟩ =
      .ok ⟨st, rs, initWords, none, false, [], [],
           os ++ [.depth st.length] ++ st.reverse.map OutEvt.num ++ [.newline]⟩ := by
  show interpret_loop (fuel + 1 + 1) _ = _
  unfold interpret_loop
  dsimp only
  rw [show parseNum ".S" = none from by decide,
      show find_word initWords ".S" = some 13 from by decide]
  dsimp only [isImmAt]
  rw [show initWords.get? 13 = some ⟨".S", false, some Prim.dots, []⟩ from by decide]
  dsimp only [execute_word, exec]
  rw [show initWords.get? 13 = some ⟨".S", false, some Prim.dots, []⟩ from by decide]
  dsimp only [execPrim]
  unfold interpret_loop
  dsimp only
  simp

/-- Claim C10: `:` is registered non-immediate (handle 20), so while
compiling, the token `:` is appended to the buffer as a WordRef instead
of being executed — a nested `:` does not start a new definition.
Concretely, `: X : ;` compiles `X` with body `[WordRef :]`, adds exactly
one dictionary entry, and ends compilation at `;`. -/
theorem colon_non_immediate_compiled :
    (initWords.get? 20 = some ⟨":", false, some Prim.colon, []⟩) ∧
    (∀ (s : Forth) (rest : List String) (fuel : Nat) (i : Nat),
        s.compiling = true → find_word s.words ":" = some i → isImmAt s i = false →
        interpret_loop (fuel + 1) { s with inputToks := ":" :: rest } =
          interpret_loop fuel
            { s with inputToks := rest, compile_buffer := s.compile_buffer ++ [Item.ref i] }) ∧
    ((interpret 50 ": X : ;" initState).map
        (fun s => (s.compiling, s.words.length, (s.words.get? 22).map Word.data))
      = .ok (false, 23, some [Item.ref 20])) := by
  refine ⟨by decide, ?_, by decide⟩
  intro s rest fuel i hc hf hi
  conv_lhs => unfold interpret_loop
  dsimp only
  rw [show parseNum ":" = none from by decide]
  dsimp only
  rw [hf]
  dsimp only
  rw [hc]
  have hImm : isImmAt { s with compiling := true, inputToks := rest } i = false := hi
  rw [hImm]
  rfl

theorem colon_non_immediate_compiled_witness :
    (⟨[], [], initWords, none, true, [], [], []⟩ : Forth).compiling = true ∧
    find_word initWords ":" = some 20 ∧
    isImmAt ⟨[], [], initWords, none, true, [], [], []⟩ 20 = false ∧
    interpret_loop 6 ⟨[], [], initWords, none, true, [], [":"], []⟩ =
      interpret_loop 5 ⟨[], [], initWords, none, true, [Item.ref 20], [], []⟩ :=
  ⟨by decide, by decide, by decide,
   colon_non_immediate_compiled.2.1 ⟨[], [], initWords, none, true, [], [], []⟩ [] 5 20
     (by decide) (by decide) (by decide)⟩

/-! ## Dictionary invariant: compiled bodies never reference immediate words -/

/-- Every word reference in `its` points at an existing, non-immediate
dictionary entry of `ws`. -/
def GoodTargets (ws : List Word) (its : List Item) : Prop :=
  ∀ i ∈ refTargets its, (ws.get? i).map Word.is_immediate = some false

/-- All compiled bodies in the dictionary, and the compilation buffer,
only reference existing non-immediate entries. -/
def DictInv (s : Forth) : Prop :=
  (∀ w ∈ s.words, GoodTargets s.words w.data) ∧ GoodTargets s.words s.compile_buffer

instance (ws : List Word) (its : List Item) : Decidable (GoodTargets ws its) := by
  unfold GoodTargets
  exact List.decidableBAll _ _

instance (s : Forth) : Decidable (DictInv s) := by
  unfold DictInv
  exact instDecidableAnd

/-- Dictionary evolution never changes the immediacy recorded at an
existing handle (entries are only appended, or updated in `data` only). -/
def ImmStable (ws1 ws2 : List Word) : Prop :=
  ∀ i b, (ws1.get? i).map Word.is_immediate = some b →
    (ws2.get? i).map Word.is_immediate = some b

theorem immStable_refl (ws : List Word) : ImmStable ws ws := fun _ _ h => h

theorem immStable_trans {a b c : List Word} (h1 : ImmStable a b) (h2 : ImmStable b c) :
    ImmStable a c := fun i x h => h2 i x (h1 i x h)

theorem goodTargets_mono {ws1 ws2 : List Word} (h : ImmStable ws1 ws2) {its : List Item} :
    GoodTargets ws1 its → GoodTargets ws2 its :=
  fun hg i hi => h i false (hg i hi)

theorem refTargets_append (a b : List Item) :
    refTargets (a ++ b) = refTargets a ++ refTargets b :=
  List.filterMap_append a b _

theorem immStable_append (ws l : List Word) : ImmStable ws (ws ++ l) := by
  intro i b h
  cases hg : ws.get? i with
  | none => rw [hg] at h; exact absurd h (by simp)
  | some w =>
    rw [List.get?_append (List.get?_eq_some.mp hg).1, hg]
    rw [hg] at h
    exact h

theorem immStable_set_data (ws : List Word) (i : Nat) (w : Word) (d : List Item)
    (hw : ws.get? i = some w) :
    ImmStable ws (ws.set i { w with data := d }) := by
  intro j b h
  rw [List.get?_set]
  by_cases hij : i = j
  · subst hij
    rw [hw] at h ⊢
    simpa using h
  · rw [if_neg hij]
    exact h

/-- `SameDict s t`: a step that did not touch the dictionary or the
compilation buffer. -/
def SameDict (s t : Forth) : Prop :=
  t.words = s.words ∧ t.compile_buffer = s.compile_buffer

theorem dictInv_of_sameDict {s t : Forth} (hd : SameDict s t) (hs : DictInv s) : DictInv t := by
  unfold DictInv
  rw [hd.1, hd.2]
  exact hs

theorem sameDict_preserves {s t : Forth} (hd : SameDict s t) (hs : DictInv s) :
    DictInv t ∧ ImmStable s.words t.words := by
  refine ⟨dictInv_of_sameDict hd hs, ?_⟩
  rw [hd.1]
  exact immStable_refl _

theorem pop_sameDict {s : Forth} {v : Int} {s1 : Forth} (h : pop s = .ok (v, s1)) :
    SameDict s s1 := by
  unfold pop at h
  cases hst : s.stack with
  | nil => rw [hst] at h; exact absurd h (by simp)
  | cons a rest =>
    rw [hst] at h
    have h2 : ({ s with stack := rest } : Forth) = s1 := by
      have := (Prod.mk.injEq _ _ _ _).mp (Except.ok.inj h)
      exact this.2
    rw [← h2]
    exact ⟨rfl, rfl⟩

theorem push_sameDict {v : Int} {s s1 : Forth} (h : push v s = .ok s1) :
    SameDict s s1 := by
  unfold push at h
  by_cases hc : STACK_SIZE ≤ s.stack.length
  · rw [if_pos hc] at h; exact absurd h (by simp)
  · rw [if_neg hc] at h
    rw [← Except.ok.inj h]
    exact ⟨rfl, rfl⟩

theorem binPrim_sameDict {f : Int → Int → Except Halt Int} {s t : Forth}
    (h : binPrim f s = .ok t) : SameDict s t := by
  unfold binPrim at h
  cases h1 : pop s with
  | error e => simp only [h1] at h; exact absurd h (by simp)
  | ok p1 =>
    obtain ⟨b, s1⟩ := p1
    simp only [h1] at h
    cases h2 : pop s1 with
    | error e => simp only [h2] at h; exact absurd h (by simp)
    | ok p2 =>
      obtain ⟨a, s2⟩ := p2
      simp only [h2] at h
      cases h3 : f a b with
      | error e => simp only [h3] at h; exact absurd h (by simp)
      | ok v =>
        simp only [h3] at h
        have hd1 := pop_sameDict h1
        have hd2 := pop_sameDict h2
        have hd3 := push_sameDict h
        exact ⟨by rw [hd3.1, hd2.1, hd1.1], by rw [hd3.2, hd2.2, hd1.2]⟩

theorem prim_colon_preserves {s t : Forth} (h : prim_colon s = .ok t) (hs : DictInv s) :
    DictInv t ∧ ImmStable s.words t.words := by
  unfold prim_colon at h
  cases htoks : s.inputToks with
  | nil =>
    simp only [htoks] at h
    have ht := Except.ok.inj h
    subst ht
    exact sameDict_preserves ⟨rfl, rfl⟩ hs
  | cons nm rest =>
    simp only [htoks] at h
    have ht := Except.ok.inj h
    subst ht
    refine ⟨⟨?_, ?_⟩, ?_⟩
    · intro w hw
      rcases List.mem_append.mp hw with hw1 | hw2
      · exact goodTargets_mono (immStable_append s.words _) (hs.1 w hw1)
      · have hw3 : w = ⟨nm, false, none, []⟩ := by simpa using hw2
        rw [hw3]
        intro i hi
        simp [refTargets] at hi
    · intro i hi
      simp [refTargets] at hi
    · exact immStable_append s.words _

theorem end_compile_preserves (s : Forth) (hs : DictInv s) :
    DictInv (end_compile s) ∧ ImmStable s.words (end_compile s).words := by
  unfold end_compile
  cases hcw : s.current_word with
  | none =>
    dsimp only
    refine ⟨⟨?_, ?_⟩, immStable_refl _⟩
    · intro w hw
      exact hs.1 w hw
    · intro i hi
      simp [refTargets] at hi
  | some j =>
    dsimp only
    cases hgw : s.words.get? j with
    | none =>
      dsimp only
      refine ⟨⟨?_, ?_⟩, immStable_refl _⟩
      · intro w hw
        exact hs.1 w hw
      · intro i hi
        simp [refTargets] at hi
    | some w =>
      dsimp only
      have hst := immStable_set_data s.words j w s.compile_buffer hgw
      refine ⟨⟨?_, ?_⟩, hst⟩
      · intro w1 hw1
        rcases List.mem_or_eq_of_mem_set hw1 with hmem | heq
        · exact goodTargets_mono hst (hs.1 w1 hmem)
        · rw [heq]
          exact goodTargets_mono hst hs.2
      · intro i hi
        simp [refTargets] at hi

theorem prim_semicolon_preserves {s t : Forth} (h : prim_semicolon s = .ok t) (hs : DictInv s) :
    DictInv t ∧ ImmStable s.words t.words := by
  unfold prim_semicolon at h
  by_cases hc : s.compiling = true
  · rw [if_pos hc] at h
    have ht := Except.ok.inj h
    subst ht
    exact end_compile_preserves s hs
  · rw [if_neg hc] at h
    have ht := Except.ok.inj h
    subst ht
    exact sameDict_preserves ⟨rfl, rfl⟩ hs

theorem execPrim_preserves (p : Prim) {s t : Forth} (h : execPrim p s = .ok t) (hs : DictInv s) :
    DictInv t ∧ ImmStable s.words t.words := by
  cases p with
  | add =>
    unfold execPrim at h
    exact sameDict_preserves (binPrim_sameDict h) hs
  | sub =>
    unfold execPrim at h
    exact sameDict_preserves (binPrim_sameDict h) hs
  | mul =>
    unfold execPrim at h
    exact sameDict_preserves (binPrim_sameDict h) hs
  | divide =>
    unfold execPrim at h
    exact sameDict_preserves (binPrim_sameDict h) hs
  | mod =>
    unfold execPrim at h
    exact sameDict_preserves (binPrim_sameDict h) hs
  | eq =>
    unfold execPrim at h
    exact sameDict_preserves (binPrim_sameDict h) hs
  | lt =>
    unfold execPrim at h
    exact sameDict_preserves (binPrim_sameDict h) hs
  | gt =>
    unfold execPrim at h
    exact sameDict_preserves (binPrim_sameDict h) hs
  | and =>
    unfold execPrim at h
    exact sameDict_preserves (binPrim_sameDict h) hs
  | or =>
    unfold execPrim at h
    exact sameDict_preserves (binPrim_sameDict h) hs
  | dup =>
    unfold execPrim at h
    cases hst : s.stack with
    | nil => simp only [hst] at h; exact absurd h (by simp)
    | cons a rest =>
      simp only [hst] at h
      exact sameDict_preserves (push_sameDict h) hs
  | drop =>
    unfold execPrim at h
    cases hp : pop s with
    | error e => simp only [hp] at h; exact absurd h (by simp)
    | ok p1 =>
      obtain ⟨v, s1⟩ := p1
      simp only [hp] at h
      have ht := Except.ok.inj h
      subst ht
      exact sameDict_preserves (pop_sameDict hp) hs
  | swap =>
    unfold execPrim at h
    cases h1 : pop s with
    | error e => simp only [h1] at h; exact absurd h (by simp)
    | ok p1 =>
      obtain ⟨a, s1⟩ := p1
      simp only [h1] at h
      cases h2 : pop s1 with
      | error e => simp only [h2] at h; exact absurd h (by simp)
      | ok p2 =>
        obtain ⟨b, s2⟩ := p2
        simp only [h2] at h
        cases h3 : push a s2 with
        | error e => simp only [h3] at h; exact absurd h (by simp)
        | ok s3 =>
          simp only [h3] at h
          have d1 := pop_sameDict h1
          have d2 := pop_sameDict h2
          have d3 := push_sameDict h3
          have d4 := push_sameDict h
          exact sameDict_preserves
            ⟨by rw [d4.1, d3.1, d2.1, d1.1], by rw [d4.2, d3.2, d2.2, d1.2]⟩ hs
  | over =>
    unfold execPrim at h
    cases h1 : pop s with
    | error e => simp only [h1] at h; exact absurd h (by simp)
    | ok p1 =>
      obtain ⟨a, s1⟩ := p1
      simp only [h1] at h
      cases h2 : pop s1 with
      | error e => simp only [h2] at h; exact absurd h (by simp)
      | ok p2 =>
        obtain ⟨b, s2⟩ := p2
        simp only [h2] at h
        cases h3 : push b s2 with
        | error e => simp only [h3] at h; exact absurd h (by simp)
        | ok s3 =>
          simp only [h3] at h
          cases h4 : push a s3 with
          | error e => simp only [h4] at h; exact absurd h (by simp)
          | ok s4 =>
            simp only [h4] at h
            have d1 := pop_sameDict h1
            have d2 := pop_sameDict h2
            have d3 := push_sameDict h3
            have d4 := push_sameDict h4
            have d5 := push_sameDict h
            exact sameDict_preserves
              ⟨by rw [d5.1, d4.1, d3.1, d2.1, d1.1], by rw [d5.2, d4.2, d3.2, d2.2, d1.2]⟩ hs
  | rot =>
    unfold execPrim at h
    cases h1 : pop s with
    | error e => simp only [h1] at h; exact absurd h (by simp)
    | ok p1 =>
      obtain ⟨c, s1⟩ := p1
      simp only [h1] at h
      cases h2 : pop s1 with
      | error e => simp only [h2] at h; exact absurd h (by simp)
      | ok p2 =>
        obtain ⟨b, s2⟩ := p2
        simp only [h2] at h
        cases h3 : pop s2 with
        | error e => simp only [h3] at h; exact absurd h (by simp)
        | ok p3 =>
          obtain ⟨a, s3⟩ := p3
          simp only [h3] at h
          cases h4 : push b s3 with
          | error e => simp only [h4] at h; exact absurd h (by simp)
          | ok s4 =>
            simp only [h4] at h
            cases h5 : push c s4 with
            | error e => simp only [h5] at h; exact absurd h (by simp)
            | ok s5 =>
              simp only [h5] at h
              have d1 := pop_sameDict h1
              have d2 := pop_sameDict h2
              have d3 := pop_sameDict h3
              have d4 := push_sameDict h4
              have d5 := push_sameDict h5
              have d6 := push_sameDict h
              exact sameDict_preserves
                ⟨by rw [d6.1, d5.1, d4.1, d3.1, d2.1, d1.1],
                 by rw [d6.2, d5.2, d4.2, d3.2, d2.2, d1.2]⟩ hs
  | emit =>
    unfold execPrim at h
    cases hp : pop s with
    | error e => simp only [hp] at h; exact absurd h (by simp)
    | ok p1 =>
      obtain ⟨v, s1⟩ := p1
      simp only [hp] at h
      have ht := Except.ok.inj h
      subst ht
      have d1 := pop_sameDict hp
      exact sameDict_preserves ⟨d1.1, d1.2⟩ hs
  | cr =>
    unfold execPrim at h
    have ht := Except.ok.inj h
    subst ht
    exact sameDict_preserves ⟨rfl, rfl⟩ hs
  | dot =>
    unfold execPrim at h
    cases hp : pop s with
    | error e => simp only [hp] at h; exact absurd h (by simp)
    | ok p1 =>
      obtain ⟨v, s1⟩ := p1
      simp only [hp] at h
      have ht := Except.ok.inj h
      subst ht
      have d1 := pop_sameDict hp
      exact sameDict_preserves ⟨d1.1, d1.2⟩ hs
  | dots =>
    unfold execPrim at h
    have ht := Except.ok.inj h
    subst ht
    exact sameDict_preserves ⟨rfl, rfl⟩ hs
  | not =>
    unfold execPrim at h
    cases hp : pop s with
    | error e => simp only [hp] at h; exact absurd h (by simp)
    | ok p1 =>
      obtain ⟨v, s1⟩ := p1
      simp only [hp] at h
      have d1 := pop_sameDict hp
      have d2 := push_sameDict h
      exact sameDict_preserves ⟨by rw [d2.1, d1.1], by rw [d2.2, d1.2]⟩ hs
  | colon => exact prim_colon_preserves h hs
  | semicolon => exact prim_semicolon_preserves h hs

theorem exec_preserves : ∀ (fuel : Nat) (fr : Frame) (s t : Forth),
    exec fuel fr s = .ok t → DictInv s → DictInv t ∧ ImmStable s.words t.words := by
  intro fuel
  induction fuel with
  | zero =>
    intro fr s t h
    exact absurd h (by simp [exec])
  | succ fuel ih =>
    intro fr s t h hs
    cases fr with
    | word i =>
      unfold exec at h
      cases hg : s.words.get? i with
      | none => simp only [hg] at h; exact absurd h (by simp)
      | some w =>
        simp only [hg] at h
        cases hc : w.code with
        | some p => simp only [hc] at h; exact execPrim_preserves p h hs
        | none => simp only [hc] at h; exact ih (.body w.data) s t h hs
    | body items =>
      cases items with
      | nil =>
        unfold exec at h
        have ht := Except.ok.inj h
        subst ht
        exact ⟨hs, immStable_refl _⟩
      | cons it rest =>
        cases it with
        | lit w =>
          unfold exec at h
          cases hp : push (decodeLit w) s with
          | error e => simp only [hp] at h; exact absurd h (by simp)
          | ok s1 =>
            simp only [hp] at h
            have hd := push_sameDict hp
            have h2 := ih (.body rest) s1 t h (dictInv_of_sameDict hd hs)
            refine ⟨h2.1, ?_⟩
            rw [← hd.1]
            exact h2.2
        | ref j =>
          unfold exec at h
          cases he : exec fuel (.word j) s with
          | error e => simp only [he] at h; exact absurd h (by simp)
          | ok s1 =>
            simp only [he] at h
            have h1 := ih (.word j) s s1 he hs
            have h2 := ih (.body rest) s1 t h h1.1
            exact ⟨h2.1, immStable_trans h1.2 h2.2⟩

theorem find_down_get (ws : List Word) (nm : String) :
    ∀ (k i : Nat), find_down ws nm k = some i → ∃ w, ws.get? i = some w := by
  intro k
  induction k with
  | zero => intro i h; exact absurd h (by simp [find_down])
  | succ k ih =>
    intro i h
    unfold find_down at h
    cases hg : ws.get? k with
    | none =>
      simp only [hg] at h
      exact ih i h
    | some w =>
      simp only [hg] at h
      by_cases hn : lc w.name = lc nm
      · rw [if_pos hn] at h
        have hik := Option.some.inj h
        subst hik
        exact ⟨w, hg⟩
      · rw [if_neg hn] at h
        exact ih i h

theorem interpret_loop_preserves : ∀ (fuel : Nat) (s t : Forth),
    interpret_loop fuel s = .ok t → DictInv s → DictInv t ∧ ImmStable s.words t.words := by
  intro fuel
  induction fuel with
  | zero =>
    intro s t h
    exact absurd h (by simp [interpret_loop])
  | succ fuel ih =>
    intro s t h hs
    unfold interpret_loop at h
    cases htoks : s.inputToks with
    | nil =>
      simp only [htoks] at h
      have ht := Except.ok.inj h
      subst ht
      exact ⟨hs, immStable_refl _⟩
    | cons tok rest =>
      simp only [htoks] at h
      cases hpn : parseNum tok with
      | some num =>
        simp only [hpn] at h
        by_cases hc : s.compiling = true
        · rw [if_pos hc] at h
          have hs1 : DictInv { s with inputToks := rest, compile_buffer := s.compile_buffer ++ [Item.lit (encodeLit num)] } := by
            refine ⟨hs.1, ?_⟩
            intro i hi
            rw [refTargets_append] at hi
            rcases List.mem_append.mp hi with hi1 | hi2
            · exact hs.2 i hi1
            · simp [refTargets] at hi2
          exact ih { s with inputToks := rest, compile_buffer := s.compile_buffer ++ [Item.lit (encodeLit num)] } t h hs1
        · rw [if_neg hc] at h
          cases hp : push (wrap32 num) { s with inputToks := rest } with
          | error e => simp only [hp] at h; exact absurd h (by simp)
          | ok s2 =>
            simp only [hp] at h
            have hd := push_sameDict hp
            have h2 := ih s2 t h (dictInv_of_sameDict hd hs)
            refine ⟨h2.1, ?_⟩
            have hw : s2.words = s.words := hd.1
            rw [← hw]
            exact h2.2
      | none =>
        simp only [hpn] at h
        cases hfw : find_word s.words tok with
        | some i =>
          simp only [hfw] at h
          by_cases hcond : (s.compiling && !(isImmAt { s with inputToks := rest } i)) = true
          · rw [if_pos hcond] at h
            have himm : isImmAt s i = false := by
              have := (Bool.and_eq_true _ _).mp hcond
              have h2 := this.2
              rw [Bool.not_eq_eq_eq_not] at h2
              exact h2
            obtain ⟨w, hw⟩ := find_down_get s.words tok s.words.length i hfw
            have hmap : (s.words.get? i).map Word.is_immediate = some false := by
              rw [hw]
              unfold isImmAt at himm
              rw [hw] at himm
              simpa using himm
            have hs1 : DictInv { s with inputToks := rest, compile_buffer := s.compile_buffer ++ [Item.ref i] } := by
              refine ⟨hs.1, ?_⟩
              intro j hj
              rw [refTargets_append] at hj
              rcases List.mem_append.mp hj with hj1 | hj2
              · exact hs.2 j hj1
              · have : j = i := by simpa [refTargets] using hj2
                rw [this]
                exact hmap
            exact ih { s with inputToks := rest, compile_buffer := s.compile_buffer ++ [Item.ref i] } t h hs1
          · rw [if_neg hcond] at h
            cases he : execute_word fuel i { s with inputToks := rest } with
            | error e => simp only [he] at h; exact absurd h (by simp)
            | ok s2 =>
              simp only [he] at h
              have h1 := exec_preserves fuel (.word i) _ s2 he hs
              have h2 := ih s2 t h h1.1
              exact ⟨h2.1, immStable_trans h1.2 h2.2⟩
        | none =>
          simp only [hfw] at h
          have ht := Except.ok.inj h
          by_cases hc : s.compiling = true
          · rw [if_pos hc] at ht
            subst ht
            have he := end_compile_preserves
              { s with inputToks := rest, out := s.out ++ [OutEvt.unknown tok] } hs
            exact he
          · rw [if_neg hc] at ht
            subst ht
            exact ⟨hs, immStable_refl _⟩

/-- Claim C6: an immediate word met during compilation is executed at
once, never appended.  Concretely, `;` inside `: X 1 ;` ends the
definition there (compilation is off afterwards) and `X`'s compiled body
is just the literal — no WordRef to `;`.  In general, for every run from
the initial state, every word reference inside every compiled body
points at a non-immediate entry, so no body ever holds a reference to
the immediate `;` entry (handle 21). -/
theorem immediate_semicolon_never_compiled :
    ((interpret 50 ": X 1 ;" initState).map
        (fun s => (s.compiling, (s.words.get? 22).map Word.data)) =
      .ok (false, some [Item.lit 3])) ∧
    (∀ (fuel : Nat) (toks : List String) (t : Forth),
        interpret_loop fuel { initState with inputToks := toks } = .ok t →
        (∀ w ∈ t.words, GoodTargets t.words w.data) ∧
        (∀ w ∈ t.words, 21 ∉ refTargets w.data)) := by
  refine ⟨by decide, ?_⟩
  intro fuel toks t h
  have hinv : DictInv { initState with inputToks := toks } := by
    refine ⟨?_, ?_⟩
    · intro w hw i hi
      have hall : ∀ w1 ∈ initWords, w1.data = ([] : List Item) := by decide
      have hdata : w.data = [] := hall w hw
      rw [hdata] at hi
      simp [refTargets] at hi
    · intro i hi
      simp [refTargets, initState] at hi
  obtain ⟨hd, hstable⟩ := interpret_loop_preserves fuel _ t h hinv
  refine ⟨hd.1, ?_⟩
  intro w hw hmem
  have h1 : (t.words.get? 21).map Word.is_immediate = some false := hd.1 w hw 21 hmem
  have h2 : (t.words.get? 21).map Word.is_immediate = some true := by
    apply hstable
    show (initWords.get? 21).map Word.is_immediate = some true
    decide
  rw [h1] at h2
  exact absurd h2 (by simp)

theorem immediate_semicolon_never_compiled_witness :
    interpret_loop 50 { initState with inputToks := [":", "X", "DUP", ";"] } =
      .ok ⟨[], [], initWords ++ [⟨"X", false, none, [Item.ref 5]⟩], none, false, [], [], []⟩ ∧
    21 ∉ refTargets [Item.ref 5] := by
  have hrun : interpret_loop 50 { initState with inputToks := [":", "X", "DUP", ";"] } =
      .ok ⟨[], [], initWords ++ [⟨"X", false, none, [Item.ref 5]⟩], none, false, [], [], []⟩ := by
    decide
  refine ⟨hrun, ?_⟩
  exact (immediate_semicolon_never_compiled.2 50 [":", "X", "DUP", ";"] _ hrun).2
    ⟨"X", false, none, [Item.ref 5]⟩ (by decide)
